import Mathlib

/-!
Verification of the Interactive Tables backend (`src/main.py`, `src/schemas.py`).

The two components with design substance are embedded here:
* the schema-inference engine of `upload_csv` (per-cell `infer_type`, the
  per-column vote tally over the first 100 sampled rows, and the majority
  vote with first-encountered tie-breaking), and
* the filter-expression compiler of `query_dataset` (splitting the query on
  `" and "`, the `contains` clause, the ordered operator scan, value
  coercion, and the MongoDB filter that is passed to storage), together
  with the limit clamp, and the UTF-8 decoding step of the upload path.

Python strings are modelled as `List Char`; bytes as `List Nat` (each < 256).
Python `int(...)` / `float(...)` acceptance is modelled over ASCII digits with
the underscore-grouping rule; binary64 rounding of floats is not modelled
(no result below depends on float arithmetic, only on parse success and on
equality of values parsed from the same text).
-/

namespace Tables

/-- Whitespace test used by `strip` (models Python `str.strip`'s notion of
whitespace restricted to the ASCII whitespace that appears in this code). -/
def ws (c : Char) : Bool := c.isWhitespace

/-- Python `str.strip()`: drop whitespace from both ends. -/
def strip (l : List Char) : List Char :=
  ((l.dropWhile ws).reverse.dropWhile ws).reverse

/-- ASCII lower-casing of one character (models Python `str.lower()` on the
ASCII text this code manipulates). -/
def lowerChar : Char → Char
  | 'A' => 'a' | 'B' => 'b' | 'C' => 'c' | 'D' => 'd' | 'E' => 'e'
  | 'F' => 'f' | 'G' => 'g' | 'H' => 'h' | 'I' => 'i' | 'J' => 'j'
  | 'K' => 'k' | 'L' => 'l' | 'M' => 'm' | 'N' => 'n' | 'O' => 'o'
  | 'P' => 'p' | 'Q' => 'q' | 'R' => 'r' | 'S' => 's' | 'T' => 't'
  | 'U' => 'u' | 'V' => 'v' | 'W' => 'w' | 'X' => 'x' | 'Y' => 'y'
  | 'Z' => 'z' | c => c

/-- Python `str.lower()` on a whole string. -/
def lowerL (l : List Char) : List Char := l.map lowerChar

/-- `hasPrefixL p l` : does `l` start with `p`? (Python `str.startswith`). -/
def hasPrefixL : List Char → List Char → Bool
  | [], _ => true
  | _ :: _, [] => false
  | p :: ps, c :: cs => p == c && hasPrefixL ps cs

/-- `substrSearch p l` : does `p` occur as a contiguous substring of `l`?
(Python's `p in l` on strings). -/
def substrSearch (p : List Char) : List Char → Bool
  | [] => p.isEmpty
  | c :: rest => hasPrefixL p (c :: rest) || substrSearch p rest

/-- Split at the first occurrence of `sep` (Python `l.split(sep, 1)` when
`sep` occurs); `none` when `sep` does not occur. -/
def splitFirst (sep : List Char) : List Char → Option (List Char × List Char)
  | [] => none
  | c :: rest =>
    if hasPrefixL sep (c :: rest) then some ([], List.drop sep.length (c :: rest))
    else (splitFirst sep rest).map (fun pr => (c :: pr.1, pr.2))

/-- Worker for `splitOnSub`: scans the text, cutting at every occurrence of
the (non-empty) separator `s0 :: stail`.  The fuel argument only forces
structural recursion; every step consumes at least one character, so any
fuel of at least the text's length gives the untruncated answer. -/
def splitOnSubGo (s0 : Char) (stail : List Char) :
    Nat → List Char → List Char → List (List Char)
  | 0, acc, l => [acc.reverse ++ l]
  | _ + 1, acc, [] => [acc.reverse]
  | fuel + 1, acc, c :: rest =>
    if hasPrefixL (s0 :: stail) (c :: rest) then
      acc.reverse :: splitOnSubGo s0 stail fuel [] (List.drop stail.length rest)
    else
      splitOnSubGo s0 stail fuel (c :: acc) rest

/-- Python `text.split(sep)` for a non-empty separator (the code only uses
the separator `" and "`). -/
def splitOnSub (sep l : List Char) : List (List Char) :=
  match sep with
  | [] => [l]
  | s0 :: stail => splitOnSubGo s0 stail l.length [] l

/-- Worker for `splitWs`. -/
def splitWsAux (cur : List Char) : List Char → List (List Char)
  | [] => if cur.isEmpty then [] else [cur.reverse]
  | c :: rest =>
    if ws c then
      (if cur.isEmpty then splitWsAux [] rest else cur.reverse :: splitWsAux [] rest)
    else
      splitWsAux (c :: cur) rest

/-- Python `str.split()` with no argument: split on runs of whitespace,
discarding empty pieces. -/
def splitWs (l : List Char) : List (List Char) := splitWsAux [] l

/-- `" ".join(parts)` : rejoin tokens with single spaces. -/
def joinSpace (parts : List (List Char)) : List Char :=
  (parts.intersperse [' ']).flatten

/-- Numeric value of an ASCII digit. -/
def digitVal (c : Char) : Nat := c.toNat - 48

/-- Worker for `digitsUndCnt`: after at least one digit has been read,
accepts `(digit | underscore digit)*`, accumulating the value and the
number of digits.  Any other character rejects the whole literal. -/
def digitsUndCntAux (acc : Nat) (cnt : Nat) : List Char → Option (Nat × Nat)
  | [] => some (acc, cnt)
  | '_' :: rest =>
    match rest with
    | c :: rest2 =>
      if c.isDigit then digitsUndCntAux (10 * acc + digitVal c) (cnt + 1) rest2 else none
    | [] => none
  | c :: rest =>
    if c.isDigit then digitsUndCntAux (10 * acc + digitVal c) (cnt + 1) rest else none

/-- A run of ASCII digits with Python's underscore-grouping rule
(`digit (underscore? digit)*`), returning the value and the digit count. -/
def digitsUndCnt : List Char → Option (Nat × Nat)
  | c :: rest => if c.isDigit then digitsUndCntAux (digitVal c) 1 rest else none
  | [] => none

/-- The value of a digit run, discarding the digit count. -/
def digitsUnd (l : List Char) : Option Nat := (digitsUndCnt l).map Prod.fst

/-- Python `int(text)` (restricted to ASCII digits): strip, optional sign,
then a digit run; anything else fails. -/
def pyIntParse (l : List Char) : Option Int :=
  match strip l with
  | '+' :: rest => (digitsUnd rest).map Int.ofNat
  | '-' :: rest => (digitsUnd rest).map (fun n => -(n : Int))
  | s => (digitsUnd s).map Int.ofNat

/-- Result of a successful Python `float(...)` parse.  Binary64 rounding is
not modelled: the mathematical value of the literal is kept as a rational. -/
inductive PyFloat where
  | finite (q : ℚ)
  | pinf
  | ninf
  | nan
deriving DecidableEq

/-- Split at the first `e`/`E` (exponent marker of a float literal). -/
def splitAtExpChar : List Char → List Char × Option (List Char)
  | [] => ([], none)
  | c :: rest =>
    if c == 'e' || c == 'E' then ([], some rest)
    else
      let pr := splitAtExpChar rest
      (c :: pr.1, pr.2)

/-- Split at the first `.` (decimal point of a float literal). -/
def splitAtDot : List Char → List Char × Option (List Char)
  | [] => ([], none)
  | c :: rest =>
    if c == '.' then ([], some rest)
    else
      let pr := splitAtDot rest
      (c :: pr.1, pr.2)

/-- Mantissa of a float literal: `digits`, `digits.`, `.digits` or
`digits.digits` (with underscore grouping inside each digit run). -/
def parseMant (l : List Char) : Option ℚ :=
  match splitAtDot l with
  | (ip, none) => (digitsUndCnt ip).map (fun vc => (vc.1 : ℚ))
  | (ip, some fp) =>
    if ip.isEmpty && fp.isEmpty then none
    else
      match (if ip.isEmpty then some ((0 : Nat), (0 : Nat)) else digitsUndCnt ip),
            (if fp.isEmpty then some ((0 : Nat), (0 : Nat)) else digitsUndCnt fp) with
      | some ivc, some fvc => some ((ivc.1 : ℚ) + (fvc.1 : ℚ) / (10 : ℚ) ^ fvc.2)
      | _, _ => none

/-- Signed exponent part of a float literal. -/
def parseExp (l : List Char) : Option Int :=
  match l with
  | '+' :: rest => (digitsUnd rest).map Int.ofNat
  | '-' :: rest => (digitsUnd rest).map (fun n => -(n : Int))
  | s => (digitsUnd s).map Int.ofNat

/-- Apply a power-of-ten exponent to a rational mantissa. -/
def applyExp (q : ℚ) (e : Int) : ℚ :=
  if 0 ≤ e then q * (10 : ℚ) ^ e.toNat else q / (10 : ℚ) ^ (-e).toNat

/-- Unsigned body of a float literal: mantissa with optional exponent. -/
def parseMantExp (l : List Char) : Option ℚ :=
  match splitAtExpChar l with
  | (m, none) => parseMant m
  | (m, some ex) =>
    match parseMant m, parseExp ex with
    | some q, some e => some (applyExp q e)
    | _, _ => none

/-- Python `float(text)`: strip, optional sign, then either one of the
special words `inf` / `infinity` / `nan` (case-insensitively) or a numeric
mantissa-exponent body. -/
def pyFloatParse (l : List Char) : Option PyFloat :=
  let s := strip l
  let sb : Bool × List Char :=
    match s with
    | '+' :: r => (false, r)
    | '-' :: r => (true, r)
    | r => (false, r)
  let neg := sb.1
  let body := sb.2
  let lb := lowerL body
  if lb = ['i', 'n', 'f'] || lb = ['i', 'n', 'f', 'i', 'n', 'i', 't', 'y'] then
    some (if neg then PyFloat.ninf else PyFloat.pinf)
  else if lb = ['n', 'a', 'n'] then
    some PyFloat.nan
  else
    match parseMantExp body with
    | some q => some (PyFloat.finite (if neg then -q else q))
    | none => none

/-! ### Schema inference (`upload_csv`, `src/main.py` lines 54-93) -/

/-- Type tag `"string"`. -/
def tagString : String := "string"
/-- Type tag `"number"`. -/
def tagNumber : String := "number"
/-- Type tag `"boolean"`. -/
def tagBoolean : String := "boolean"
/-- Type tag `"date"`. -/
def tagDate : String := "date"

/-- The word `true` as a character list. -/
def trueL : List Char := ['t', 'r', 'u', 'e']
/-- The word `false` as a character list. -/
def falseL : List Char := ['f', 'a', 'l', 's', 'e']

/-- `infer_type` from `upload_csv` (`src/main.py` lines 54-73): the per-cell
type-detection heuristic.  `none` models a missing cell (`row.get(c)` being
`None`). -/
def infer_type (value : Option (List Char)) : String :=
  match value with
  | none => tagString
  | some s =>
    if s.isEmpty then tagString
    else
      let v := strip s
      if lowerL v = trueL || lowerL v = falseL then tagBoolean
      else if (pyIntParse v).isSome then tagNumber
      else if (pyFloatParse v).isSome then tagNumber
      else if (v.contains '-' || v.contains '/') && v.any Char.isDigit then tagDate
      else tagString

/-- One vote: `type_counts[c][t] = type_counts[c].get(t, 0) + 1`
(`src/main.py` line 86).  A Python dict keeps insertion order, so the tally
is an association list in which a tag first voted for later sits further
right; `bump` increments the first entry with the given key or appends a
fresh `(t, 1)` entry at the end. -/
def bump : List (String × Nat) → String → List (String × Nat)
  | [], t => [(t, 1)]
  | (k, n) :: rest, t =>
    if k = t then (k, n + 1) :: rest else (k, n) :: bump rest t

/-- The per-column tally over the sampled cell tags, in sample order
(`src/main.py` lines 83-86). -/
def tallyTags (ts : List String) : List (String × Nat) :=
  ts.foldl bump []

/-- One step of Python `max(items, key=lambda kv: kv[1])`: keep the current
best unless the next count is strictly greater (so the first maximum wins). -/
def pick (b y : String × Nat) : String × Nat :=
  if y.2 > b.2 then y else b

/-- Python `max(items, key=lambda kv: kv[1])` over a non-empty association
list (`src/main.py` line 91); `none` on the empty list. -/
def firstMax : List (String × Nat) → Option (String × Nat)
  | [] => none
  | x :: rest => some (rest.foldl pick x)

/-- Final inferred type of a column from the list of its sampled cell
values (`src/main.py` lines 88-93): the first-encountered maximum of the
tally, defaulting to `"string"` for an empty sample. -/
def columnType (vals : List (Option (List Char))) : String :=
  match firstMax (tallyTags (vals.map infer_type)) with
  | some kv => kv.1
  | none => tagString

/-- One CSV row: mapping from column name to raw cell value. -/
def Row : Type := List (List Char × List Char)

/-- `row.get(c)`: the value of column `c` in a row, `none` when missing. -/
def rowGet (r : Row) (c : List Char) : Option (List Char) :=
  (List.find? (fun p => p.1 = c) r).map Prod.snd

/-- Sample bound of the type-vote loop (`src/main.py` line 78). -/
def sampleLimit : Nat := 100

/-- The inferred type of column `c` over an uploaded row set: only the
first `sampleLimit` rows vote (`src/main.py` lines 79-93). -/
def inferColumnType (rows : List Row) (c : List Char) : String :=
  columnType ((rows.take sampleLimit).map (fun r => rowGet r c))

/-! ### Filter expression compiler (`query_dataset`, `src/main.py` lines 144-201) -/

/-- MongoDB comparison operator selected by `mongo_op_map`
(`src/main.py` lines 187-194). -/
inductive MongoOp where
  | eq | ne | gt | lt | gte | lte
deriving DecidableEq

/-- A coerced right-hand value of a comparison (`v_cast`,
`src/main.py` lines 177-186). -/
inductive QVal where
  | bool (b : Bool)
  | int (n : Int)
  | float (f : PyFloat)
  | str (s : List Char)
deriving DecidableEq

/-- One member of the `$and` list of the compiled filter: either a
comparison condition `{field: {op: value}}` or a case-insensitive regex
condition `{field: {"$regex": pattern, "$options": "i"}}`. -/
inductive Cond where
  | compare (field : List Char) (op : MongoOp) (v : QVal)
  | regex (field : List Char) (pattern : List Char) (caseInsensitive : Bool)
deriving DecidableEq

/-- The filter dictionary passed to `db["record"].find`
(`src/main.py` lines 150, 153, 199): either the bare dataset scope
`{"dataset_id": id}` or `{"$and": [{"dataset_id": id}] + parts}`. -/
inductive Filter where
  | byDataset (dsid : String)
  | andFilter (dsid : String) (parts : List Cond)
deriving DecidableEq

/-- The dataset id a filter constrains `dataset_id` to. -/
def filterDsid : Filter → String
  | Filter.byDataset d => d
  | Filter.andFilter d _ => d

/-- Separator of conjoined clauses (`text.split(" and ")`, line 152). -/
def andSep : List Char := [' ', 'a', 'n', 'd', ' ']
/-- Clause keyword checked case-insensitively (`"contains "`, line 157). -/
def containsTok : List Char := ['c', 'o', 'n', 't', 'a', 'i', 'n', 's', ' ']
/-- The word `contains` (without trailing space). -/
def containsWord : List Char := ['c', 'o', 'n', 't', 'a', 'i', 'n', 's']
/-- Operator token `>=`. -/
def opGe : List Char := ['>', '=']
/-- Operator token `<=`. -/
def opLe : List Char := ['<', '=']
/-- Operator token `>`. -/
def opGt : List Char := ['>']
/-- Operator token `<`. -/
def opLt : List Char := ['<']
/-- Operator token `=`. -/
def opEq : List Char := ['=']
/-- Operator token `!=`. -/
def opNe : List Char := ['!', '=']
/-- Operator token `" is "` (with its surrounding spaces). -/
def opIs : List Char := [' ', 'i', 's', ' ']
/-- The word `is` (result of `" is ".strip()`). -/
def isWord : List Char := ['i', 's']
/-- Field-name prefix `data.` applied to queried columns. -/
def dataDot : List Char := ['d', 'a', 't', 'a', '.']

/-- The fixed, ordered operator token list of the scan
(`src/main.py` line 166). -/
def OPS : List (List Char) := [opGe, opLe, opGt, opLt, opEq, opNe, opIs]

/-- Normalisation of a matched operator token: `" is "` (whose `strip` is
`is`) becomes `"="`; every other token is kept (`src/main.py` lines 171-175). -/
def opNorm (op : List Char) : List Char :=
  if strip op = isWord then opEq else op

/-- `mongo_op_map` (`src/main.py` lines 187-194). -/
def mongoMap (op : List Char) : Option MongoOp :=
  if op = opEq then some MongoOp.eq
  else if op = opNe then some MongoOp.ne
  else if op = opGt then some MongoOp.gt
  else if op = opLt then some MongoOp.lt
  else if op = opGe then some MongoOp.gte
  else if op = opLe then some MongoOp.lte
  else none

/-- `v_cast` (`src/main.py` lines 177-186): `true`/`false` (in any case)
become booleans; otherwise a value containing `.` is parsed as a float and
any other value as an integer; on parse failure the raw string is kept. -/
def vCast (val : List Char) : QVal :=
  if lowerL val = trueL || lowerL val = falseL then
    QVal.bool (lowerL val = trueL)
  else if val.contains '.' then
    match pyFloatParse val with
    | some f => QVal.float f
    | none => QVal.str val
  else
    match pyIntParse val with
    | some n => QVal.int n
    | none => QVal.str val

/-- Compilation of one clause substring (`src/main.py` lines 155-197):
a `contains` clause with at least three whitespace tokens becomes a regex
condition; otherwise the first operator token of `OPS` that occurs in the
clause splits it at that token's first occurrence; a clause that fits
neither pattern is silently dropped (`none`). -/
def compileClause (c : List Char) : Option Cond :=
  if hasPrefixL containsTok (lowerL c) then
    match splitWs c with
    | _ :: col :: rest =>
      if rest.isEmpty then none
      else some (Cond.regex (dataDot ++ col) (joinSpace rest) true)
    | _ => none
  else
    match OPS.find? (fun op => substrSearch op c) with
    | none => none
    | some op =>
      match splitFirst op c with
      | none => none
      | some pr =>
        match mongoMap (opNorm op) with
        | none => none
        | some m => some (Cond.compare (dataDot ++ strip pr.1) m (vCast (strip pr.2)))

/-- The clause substrings of a query (`src/main.py` line 152):
split on `" and "`, strip, and drop empties. -/
def clausesOf (q : List Char) : List (List Char) :=
  ((splitOnSub andSep (strip q)).map strip).filter (fun c => !c.isEmpty)

/-- The successfully compiled clauses, in order (`and_parts`). -/
def andPartsOf (q : List Char) : List Cond :=
  (clausesOf q).filterMap compileClause

/-- The filter built by `query_dataset` (`src/main.py` lines 148-199) for a
dataset id and query text: the bare dataset scope for an empty (or fully
dropped) query, else the `$and` of the dataset scope with the compiled
clauses. -/
def compileFilter (dsid : String) (q : List Char) : Filter :=
  if (strip q).isEmpty then Filter.byDataset dsid
  else if (andPartsOf q).isEmpty then Filter.byDataset dsid
  else Filter.andFilter dsid (andPartsOf q)

/-- Default of `QueryRequest.limit` (`src/main.py` line 130). -/
def defaultLimit : Int := 100

/-- The limit applied to the storage `find`
(`min(max(req.limit, 1), 1000)`, `src/main.py` line 201). -/
def appliedLimit (l : Int) : Int := min (max l 1) 1000

/-! ### Regex semantics of the storage collaborator

`compileClause` emits the raw clause value as the pattern of a MongoDB
`$regex` condition with `$options: "i"`.  The storage layer is an external
collaborator; its documented `$regex` behaviour (PCRE-style matching of the
pattern anywhere in the field value) is modelled here for the fragment the
proofs use: patterns built from literal characters and the metacharacter
`.` (match any character).  Patterns containing other metacharacters are
outside this model and no theorem below evaluates one. -/

/-- The PCRE metacharacters (a pattern avoiding all of them is matched
purely literally). -/
def regexMeta : List Char :=
  ['\\', '^', '$', '.', '|', '?', '*', '+', '(', ')', '[', ']', '\x7b', '\x7d']

/-- Case-insensitive match of one pattern character against one text
character; `.` matches anything. -/
def charMatchCI (p c : Char) : Bool :=
  p == '.' || lowerChar p == lowerChar c

/-- Does the pattern match at the very start of the text? -/
def matchHere : List Char → List Char → Bool
  | [], _ => true
  | _ :: _, [] => false
  | p :: ps, c :: cs => charMatchCI p c && matchHere ps cs

/-- Case-insensitive regex search: does the pattern match anywhere in the
text?  This is how a record value is tested against the compiled regex
condition of a `contains` clause. -/
def regexSearchCI (p : List Char) : List Char → Bool
  | [] => matchHere p []
  | c :: rest => matchHere p (c :: rest) || regexSearchCI p rest

/-- The specification's reading of a `Contains` clause: the value occurs in
the record's field as a literal substring, ignoring case. -/
def substrCI (needle hay : List Char) : Bool :=
  substrSearch (lowerL needle) (lowerL hay)

/-! ### UTF-8 decoding of the upload (`src/main.py` lines 38-42) -/

/-- Decode one UTF-8 sequence: given the lead byte and the following bytes,
return the decoded character and how many extra bytes (beyond the lead)
were consumed, or `none` for an invalid or truncated sequence.  Overlong
encodings and surrogates are rejected, as by Python's UTF-8 codec. -/
def utf8Seq (b : Nat) (rest : List Nat) : Option (Char × Nat) :=
  if b < 128 then some (Char.ofNat b, 0)
  else if 194 ≤ b && b ≤ 223 then
    match rest with
    | b2 :: _ =>
      if 128 ≤ b2 && b2 ≤ 191 then
        some (Char.ofNat ((b - 192) * 64 + (b2 - 128)), 1)
      else none
    | [] => none
  else if 224 ≤ b && b ≤ 239 then
    match rest with
    | b2 :: b3 :: _ =>
      let lo2 : Nat := if b = 224 then 160 else 128
      let hi2 : Nat := if b = 237 then 159 else 191
      if (lo2 ≤ b2 && b2 ≤ hi2) && (128 ≤ b3 && b3 ≤ 191) then
        some (Char.ofNat ((b - 224) * 4096 + (b2 - 128) * 64 + (b3 - 128)), 2)
      else none
    | _ => none
  else if 240 ≤ b && b ≤ 244 then
    match rest with
    | b2 :: b3 :: b4 :: _ =>
      let lo2 : Nat := if b = 240 then 144 else 128
      let hi2 : Nat := if b = 244 then 143 else 191
      if ((lo2 ≤ b2 && b2 ≤ hi2) && (128 ≤ b3 && b3 ≤ 191)) && (128 ≤ b4 && b4 ≤ 191) then
        some (Char.ofNat ((b - 240) * 262144 + (b2 - 128) * 4096 + (b3 - 128) * 64 + (b4 - 128)), 3)
      else none
    | _ => none
  else none

/-- Worker for `utf8DecodeIgnore`.  The fuel argument only forces
structural recursion; every step consumes at least one byte, so any fuel of
at least the byte count gives the full answer. -/
def utf8DecodeIgnoreGo : Nat → List Nat → List Char
  | _, [] => []
  | 0, _ :: _ => []
  | fuel + 1, b :: rest =>
    match utf8Seq b rest with
    | some cr => cr.1 :: utf8DecodeIgnoreGo fuel (rest.drop cr.2)
    | none => utf8DecodeIgnoreGo fuel rest

/-- `content.decode("utf-8", errors="ignore")` (`src/main.py` line 40):
decode sequence by sequence, skipping past invalid bytes instead of
failing. -/
def utf8DecodeIgnore (bs : List Nat) : List Char :=
  utf8DecodeIgnoreGo bs.length bs

/-- Worker for `utf8DecodeStrict` (fuel as in `utf8DecodeIgnoreGo`). -/
def utf8DecodeStrictGo : Nat → List Nat → Option (List Char)
  | _, [] => some []
  | 0, _ :: _ => none
  | fuel + 1, b :: rest =>
    match utf8Seq b rest with
    | some cr => (utf8DecodeStrictGo fuel (rest.drop cr.2)).map (fun cs => cr.1 :: cs)
    | none => none

/-- Strict UTF-8 decoding (`errors="strict"`): fails on the first invalid
byte.  Present only as the contrast making the leniency of
`utf8DecodeIgnore` visible. -/
def utf8DecodeStrict (bs : List Nat) : Option (List Char) :=
  utf8DecodeStrictGo bs.length bs

/-- The decoding step of `upload_csv` (`src/main.py` lines 39-42), modelled
as a fallible step: the `try` block decodes with `errors="ignore"`, and the
`except` branch would produce the `"Unable to decode file as UTF-8"` error.
Since decoding with `errors="ignore"` is total, the step always succeeds. -/
def upload_decode (bs : List Nat) : Except String (List Char) :=
  Except.ok (utf8DecodeIgnore bs)

/-! ### Derived notions used by the theorem statements -/

/-- Rule 1 of the detection heuristic: empty or missing value. -/
def ruleEmpty (v : Option (List Char)) : Bool :=
  match v with
  | none => true
  | some s => s.isEmpty

/-- Rule 2: the (stripped) value is `true`/`false` case-insensitively. -/
def ruleBool (v : Option (List Char)) : Bool :=
  match v with
  | none => false
  | some s => lowerL (strip s) = trueL || lowerL (strip s) = falseL

/-- Rule 3: the value parses as an integer literal. -/
def ruleInt (v : Option (List Char)) : Bool :=
  match v with
  | none => false
  | some s => (pyIntParse (strip s)).isSome

/-- Rule 4: the value parses as a floating-point literal. -/
def ruleFloat (v : Option (List Char)) : Bool :=
  match v with
  | none => false
  | some s => (pyFloatParse (strip s)).isSome

/-- Rule 5: the value contains a `-` or `/` and at least one digit. -/
def ruleDate (v : Option (List Char)) : Bool :=
  match v with
  | none => false
  | some s => ((strip s).contains '-' || (strip s).contains '/') && (strip s).any Char.isDigit

/-- The ordered rule list of the type-detection heuristic, paired with the
tag each rule assigns; the final catch-all rule always applies. -/
def detectionRules : List ((Option (List Char) → Bool) × String) :=
  [(ruleEmpty, tagString), (ruleBool, tagBoolean), (ruleInt, tagNumber),
   (ruleFloat, tagNumber), (ruleDate, tagDate), (fun _ => true, tagString)]

/-- The tag assigned by the first applicable detection rule. -/
def firstRuleTag (v : Option (List Char)) : String :=
  match detectionRules.find? (fun r => r.1 v) with
  | some r => r.2
  | none => tagString

/-- Is a compiled condition a not-equal (`$ne`) comparison? -/
def isNeCond : Cond → Bool
  | Cond.compare _ MongoOp.ne _ => true
  | _ => false

/-- Index of the first occurrence of `t` (the length of the list when `t`
does not occur). -/
def firstIdx (t : String) : List String → Nat
  | [] => 0
  | x :: xs => if x = t then 0 else firstIdx t xs + 1

/-! ### Named concrete inputs used in the example parts of the theorems -/

/-- Dataset id used by the concrete examples. -/
def dsD : String := "d"
/-- Query `price > 100`. -/
def qPrice : List Char := "price > 100".data
/-- Query `a != 5`. -/
def qNe : List Char := "a != 5".data
/-- Field `data.a !` (note the residue of the `!`). -/
def fieldABang : List Char := "data.a !".data
/-- Field `data.a`. -/
def fieldA : List Char := "data.a".data
/-- Field `data.price`. -/
def fieldPrice : List Char := "data.price".data
/-- Query `contains name John and age >= 30`. -/
def qContainsAge : List Char := "contains name John and age >= 30".data
/-- Query `contains name and age >= 30` (first clause malformed). -/
def qPartial : List Char := "contains name and age >= 30".data
/-- Query `contains name` (fewer than three tokens). -/
def qContainsShort : List Char := "contains name".data
/-- Field `data.name`. -/
def fieldName : List Char := "data.name".data
/-- Field `data.age`. -/
def fieldAge : List Char := "data.age".data
/-- Value `John`. -/
def valJohn : List Char := "John".data
/-- Query `status is true`. -/
def qIsTrue : List Char := "status is true".data
/-- Query `status = true`. -/
def qEqTrue : List Char := "status = true".data
/-- Query `status is a=b`. -/
def qIsAB : List Char := "status is a=b".data
/-- Query `status = a=b`. -/
def qEqAB : List Char := "status = a=b".data
/-- Field `data.status`. -/
def fieldStatus : List Char := "data.status".data
/-- Field `data.status is a` (mis-parse residue). -/
def fieldStatusIsA : List Char := "data.status is a".data
/-- Value `b`. -/
def valB : List Char := "b".data
/-- Value `a=b`. -/
def valAB : List Char := "a=b".data
/-- Column `status`. -/
def colStatus : List Char := "status".data
/-- Value `true` (as query text). -/
def valTrue : List Char := "true".data
/-- Clause `x > 1`. -/
def clXGt1 : List Char := "x > 1".data
/-- Field `data.x`. -/
def fieldX : List Char := "data.x".data
/-- Cell value ` TRUE ` (padded). -/
def vPadTrue : List Char := " TRUE ".data
/-- Cell value `-5`. -/
def vNeg5 : List Char := "-5".data
/-- Cell value `2024-01-01`. -/
def vDate : List Char := "2024-01-01".data
/-- Cell value `nan`. -/
def vNan : List Char := "nan".data
/-- Cell value `1.5`. -/
def vDec : List Char := "1.5".data
/-- Cell value `hello`. -/
def vHello : List Char := "hello".data
/-- Cell value `a/b1`. -/
def vSlash : List Char := "a/b1".data
/-- Regex pattern `a.c` (contains the metacharacter `.`). -/
def patDot : List Char := "a.c".data
/-- Record value `abc`. -/
def txtAbc : List Char := "abc".data
/-- Clause `contains name a.c`. -/
def clContainsDot : List Char := "contains name a.c".data
/-- Regex pattern `john` (no metacharacters). -/
def patJohn : List Char := "john".data
/-- Record value `xJOHNy`. -/
def txtJohn : List Char := "xJOHNy".data
/-- The padded `=` token as it appears in a spaced query (` = `). -/
def eqPad : List Char := [' ', '=', ' ']
/-- Sampled column values `1, x, 2, y`: a 50/50 number/string tie in which
`number` occurs first. -/
def exTie1 : List (Option (List Char)) := [some ['1'], some ['x'], some ['2'], some ['y']]
/-- Sampled column values `x, 1, y, 2`: the same tie with `string` first. -/
def exTie2 : List (Option (List Char)) := [some ['x'], some ['1'], some ['y'], some ['2']]

/-! ## Lemmas about the character-list utilities -/

theorem hasPrefixL_mem {p : List Char} :
    ∀ {l : List Char}, hasPrefixL p l = true → ∀ {c : Char}, c ∈ p → c ∈ l := by
  induction p with
  | nil =>
    intro l _ c hc
    simp at hc
  | cons x xs ih =>
    intro l h c hc
    cases l with
    | nil => simp [hasPrefixL] at h
    | cons y ys =>
      simp only [hasPrefixL, Bool.and_eq_true, beq_iff_eq] at h
      rcases List.mem_cons.mp hc with rfl | hc2
      · exact h.1 ▸ List.mem_cons_self _ _
      · exact List.mem_cons_of_mem _ (ih h.2 hc2)

theorem substrSearch_mem {p : List Char} :
    ∀ {l : List Char}, substrSearch p l = true → ∀ {c : Char}, c ∈ p → c ∈ l := by
  intro l
  induction l with
  | nil =>
    intro h c hc
    cases p with
    | nil => simp at hc
    | cons q qs => simp [substrSearch] at h
  | cons y ys ih =>
    intro h c hc
    simp only [substrSearch, Bool.or_eq_true] at h
    rcases h with h | h
    · exact hasPrefixL_mem h hc
    · exact List.mem_cons_of_mem _ (ih h hc)

theorem hasPrefixL_self_append (p t : List Char) : hasPrefixL p (p ++ t) = true := by
  induction p with
  | nil => rfl
  | cons x xs ih => simp [hasPrefixL, ih]

theorem hasPrefixL_substrSearch {p t : List Char} (h : hasPrefixL p t = true) :
    substrSearch p t = true := by
  cases t with
  | nil =>
    cases p with
    | nil => rfl
    | cons x xs => simp [hasPrefixL] at h
  | cons y ys => simp [substrSearch, h]

theorem substrSearch_at (s : List Char) :
    ∀ (a b : List Char), substrSearch s (a ++ s ++ b) = true := by
  intro a
  induction a with
  | nil =>
    intro b
    simpa using hasPrefixL_substrSearch (hasPrefixL_self_append s b)
  | cons x xs ih =>
    intro b
    simp only [List.cons_append, substrSearch, Bool.or_eq_true]
    exact Or.inr (by simpa using ih b)

theorem hasPrefixL_part {a b t : List Char} (h : hasPrefixL (a ++ b) t = true) :
    substrSearch b t = true := by
  induction a generalizing t with
  | nil => exact hasPrefixL_substrSearch (by simpa using h)
  | cons x xs ih =>
    cases t with
    | nil => simp [hasPrefixL] at h
    | cons y ys =>
      simp only [List.cons_append, hasPrefixL, Bool.and_eq_true] at h
      have := ih h.2
      simp [substrSearch, this]

theorem substrSearch_part {a b l : List Char} (h : substrSearch (a ++ b) l = true) :
    substrSearch b l = true := by
  induction l with
  | nil =>
    simp only [substrSearch, List.isEmpty_eq_true, List.append_eq_nil] at h
    simp [substrSearch, h.2]
  | cons y ys ih =>
    simp only [substrSearch, Bool.or_eq_true] at h
    rcases h with h | h
    · exact hasPrefixL_part h
    · have := ih h
      simp [substrSearch, this]

theorem substrSearch_skip {s0 : Char} {s' a b : List Char}
    (ha : ∀ c ∈ a, c ≠ s0) :
    substrSearch (s0 :: s') (a ++ b) = substrSearch (s0 :: s') b := by
  induction a with
  | nil => simp
  | cons x xs ih =>
    have hx : x ≠ s0 := ha x (List.mem_cons_self _ _)
    have hpre : hasPrefixL (s0 :: s') (x :: (xs ++ b)) = false := by
      simp only [hasPrefixL, Bool.and_eq_false_iff]
      left
      simp [beq_eq_false_iff_ne]
      exact fun hh => hx hh.symm
    simp only [List.cons_append, substrSearch, List.append_eq, hpre, Bool.false_or]
    exact ih (fun c hc => ha c (List.mem_cons_of_mem _ hc))

theorem substrSearch_absent {p l : List Char} {x : Char}
    (hc : x ∈ p) (hl : ∀ c ∈ l, c ≠ x) : substrSearch p l = false := by
  by_contra h
  have := substrSearch_mem (Bool.of_not_eq_false h) hc
  exact hl x this rfl

theorem splitFirst_at {s : Char} {t : List Char} :
    ∀ {a : List Char} (b : List Char), (∀ c ∈ a, c ≠ s) →
    splitFirst (s :: t) (a ++ (s :: t) ++ b) = some (a, b) := by
  intro a
  induction a with
  | nil =>
    intro b _
    have hpre := hasPrefixL_self_append (s :: t) b
    have hdrop : List.drop (s :: t).length ((s :: t) ++ b) = b := List.drop_left _ _
    simp only [List.nil_append, List.cons_append] at hpre hdrop ⊢
    simp [splitFirst, hpre, hdrop]
  | cons x xs ih =>
    intro b ha
    have hx : x ≠ s := ha x (List.mem_cons_self _ _)
    have hpre : hasPrefixL (s :: t) (x :: (xs ++ (s :: t) ++ b)) = false := by
      simp only [hasPrefixL, Bool.and_eq_false_iff]
      left
      simp only [beq_eq_false_iff_ne, ne_eq]
      exact fun hh => hx hh.symm
    simp only [List.cons_append, List.append_assoc] at hpre ⊢
    simp only [splitFirst, List.append_eq, hpre, Bool.false_eq_true, if_false]
    have heq : xs ++ s :: (t ++ b) = xs ++ (s :: t) ++ b := by simp
    rw [heq, ih b (fun c hc => ha c (List.mem_cons_of_mem _ hc))]
    rfl

theorem splitOnSubGo_none {s0 : Char} {s' : List Char} :
    ∀ {l : List Char} {fuel : Nat} (acc : List Char),
    substrSearch (s0 :: s') l = false → l.length ≤ fuel →
    splitOnSubGo s0 s' fuel acc l = [acc.reverse ++ l] := by
  intro l
  induction l with
  | nil =>
    intro fuel acc _ _
    cases fuel with
    | zero => rfl
    | succ n => simp [splitOnSubGo]
  | cons c rest ih =>
    intro fuel acc h hlen
    cases fuel with
    | zero => simp at hlen
    | succ n =>
      simp only [substrSearch, Bool.or_eq_false_iff] at h
      simp only [splitOnSubGo, h.1, Bool.false_eq_true, if_false]
      rw [ih (c :: acc) h.2 (by simpa using Nat.le_of_succ_le_succ (by simpa using hlen))]
      simp

theorem splitOnSub_single {s0 : Char} {s' l : List Char}
    (h : substrSearch (s0 :: s') l = false) :
    splitOnSub (s0 :: s') l = [l] := by
  simp only [splitOnSub]
  rw [splitOnSubGo_none [] h (Nat.le_refl _)]
  simp

theorem lowerChar_ws (c : Char) : ws (lowerChar c) = ws c := by
  unfold lowerChar
  split <;> rfl

theorem lowerL_not_ws {l : List Char} (h : ∀ c ∈ l, ws c = false) :
    ∀ c ∈ lowerL l, ws c = false := by
  intro c hc
  rcases List.mem_map.mp hc with ⟨c0, hc0, rfl⟩
  rw [lowerChar_ws]
  exact h c0 hc0

theorem dropWhile_head_not {l : List Char} (hne : l ≠ [])
    (h : ∀ a ∈ l.take 1, ws a = false) : l.dropWhile ws = l := by
  cases l with
  | nil => exact absurd rfl hne
  | cons x xs =>
    have hx : ws x = false := h x (by simp)
    simp [List.dropWhile, hx]

theorem all_not_ws_dropWhile {l : List Char} (h : ∀ c ∈ l, ws c = false) :
    l.dropWhile ws = l := by
  cases l with
  | nil => rfl
  | cons x xs => simp [List.dropWhile, h x (List.mem_cons_self _ _)]

theorem strip_all_not_ws {l : List Char} (h : ∀ c ∈ l, ws c = false) :
    strip l = l := by
  unfold strip
  rw [all_not_ws_dropWhile h]
  rw [all_not_ws_dropWhile (by intro c hc; exact h c (List.mem_reverse.mp hc))]
  exact List.reverse_reverse l

theorem strip_sandwich {a b : List Char} (m : List Char)
    (hae : a ≠ []) (hbe : b ≠ [])
    (ha : ∀ c ∈ a, ws c = false) (hb : ∀ c ∈ b, ws c = false) :
    strip (a ++ m ++ b) = a ++ m ++ b := by
  unfold strip
  have h1 : (a ++ m ++ b).dropWhile ws = a ++ m ++ b := by
    apply dropWhile_head_not (by simp [hae])
    intro c hc
    cases a with
    | nil => exact absurd rfl hae
    | cons x xs =>
      simp only [List.cons_append, List.take_succ_cons, List.take_zero, List.mem_singleton] at hc
      exact hc ▸ ha x (List.mem_cons_self _ _)
  rw [h1]
  have h2 : (a ++ m ++ b).reverse.dropWhile ws = (a ++ m ++ b).reverse := by
    apply dropWhile_head_not (by simp [hae])
    intro c hc
    have : (a ++ m ++ b).reverse = b.reverse ++ (m.reverse ++ a.reverse) := by simp
    rw [this] at hc
    cases hbrev : b.reverse with
    | nil => exact absurd (by simpa using congrArg List.reverse hbrev) hbe
    | cons y ys =>
      rw [hbrev] at hc
      simp only [List.cons_append, List.take_succ_cons, List.take_zero, List.mem_singleton] at hc
      have hy : y ∈ b := by
        rw [← List.mem_reverse, hbrev]
        exact List.mem_cons_self _ _
      exact hc ▸ hb y hy
  rw [h2]
  exact List.reverse_reverse _

theorem strip_trailing_space {a : List Char} (hae : a ≠ [])
    (ha : ∀ c ∈ a, ws c = false) : strip (a ++ [' ']) = a := by
  unfold strip
  have h1 : (a ++ [' ']).dropWhile ws = a ++ [' '] := by
    apply dropWhile_head_not (by simp)
    intro c hc
    cases a with
    | nil => exact absurd rfl hae
    | cons x xs =>
      simp only [List.cons_append, List.take_succ_cons, List.take_zero, List.mem_singleton] at hc
      exact hc ▸ ha x (List.mem_cons_self _ _)
  rw [h1]
  have h2 : (a ++ [' ']).reverse = ' ' :: a.reverse := by simp
  rw [h2]
  have h3 : (' ' :: a.reverse).dropWhile ws = a.reverse.dropWhile ws := by
    simp [List.dropWhile, ws]
  rw [h3, all_not_ws_dropWhile (by intro c hc; exact ha c (List.mem_reverse.mp hc))]
  exact List.reverse_reverse a

theorem strip_leading_space {b : List Char} (hb : ∀ c ∈ b, ws c = false) :
    strip (' ' :: b) = b := by
  unfold strip
  have h1 : (' ' :: b).dropWhile ws = b.dropWhile ws := by
    simp [List.dropWhile, ws]
  rw [h1, all_not_ws_dropWhile hb,
    all_not_ws_dropWhile (by intro c hc; exact hb c (List.mem_reverse.mp hc))]
  exact List.reverse_reverse b

theorem word_space_align {p : List Char} :
    ∀ {a : List Char} {b : List Char}, (∀ c ∈ p, ws c = false) → (∀ c ∈ a, ws c = false) →
    hasPrefixL (p ++ [' ']) (a ++ ' ' :: b) = true → p = a := by
  induction p with
  | nil =>
    intro a b _ ha h
    cases a with
    | nil => rfl
    | cons x xs =>
      simp only [List.nil_append, List.cons_append, hasPrefixL, Bool.and_eq_true,
        beq_iff_eq] at h
      have := ha x (List.mem_cons_self _ _)
      rw [← h.1] at this
      simp [ws] at this
  | cons y p' ih =>
    intro a b hp ha h
    cases a with
    | nil =>
      simp only [List.cons_append, List.nil_append, hasPrefixL, Bool.and_eq_true,
        beq_iff_eq] at h
      have := hp y (List.mem_cons_self _ _)
      rw [h.1] at this
      simp [ws] at this
    | cons x xs =>
      simp only [List.cons_append, hasPrefixL, Bool.and_eq_true, beq_iff_eq] at h
      have := ih (fun c hc => hp c (List.mem_cons_of_mem _ hc))
        (fun c hc => ha c (List.mem_cons_of_mem _ hc)) h.2
      rw [h.1, this]

/-! ## Claim theorems -/

/-- Claim C1: every predicate produced by the query compiler includes the
dataset-id equality constraint.  For every dataset id and every query text
(empty, well-formed, or with every clause dropped as malformed) the filter
passed to storage is either the bare scope `{"dataset_id": id}` or an
`$and` whose first conjunct is that scope, with `id` the requested id. -/
theorem C1_dataset_scope :
    (∀ (dsid : String) (q : List Char), filterDsid (compileFilter dsid q) = dsid) ∧
    (∀ (dsid : String) (q : List Char),
      compileFilter dsid q = Filter.byDataset dsid ∨
      ∃ parts, compileFilter dsid q = Filter.andFilter dsid parts) ∧
    compileFilter dsD [] = Filter.byDataset dsD := by
  refine ⟨?_, ?_, by decide⟩
  · intro dsid q
    unfold compileFilter
    cases h1 : (strip q).isEmpty with
    | true => simp [h1, filterDsid]
    | false =>
      cases h2 : (andPartsOf q).isEmpty with
      | true => simp [h1, h2, filterDsid]
      | false => simp [h1, h2, filterDsid]
  · intro dsid q
    unfold compileFilter
    cases h1 : (strip q).isEmpty with
    | true => simp [h1]
    | false =>
      cases h2 : (andPartsOf q).isEmpty with
      | true => simp [h1, h2]
      | false =>
        simp only [h1, h2, Bool.false_eq_true, if_false]
        exact Or.inr ⟨andPartsOf q, rfl⟩

/-- Claim C8: the query limit applied to the storage `find` is
`min(max(limit, 1), 1000)` — clamped to `[1, 1000]`, with `0` and negatives
clamping to `1`, `5000` clamping to `1000`, and the default `100` passing
through unchanged. -/
theorem C8_limit_clamp :
    (∀ l : Int, appliedLimit l = min (max l 1) 1000) ∧
    (∀ l : Int, l ≤ 0 → appliedLimit l = 1) ∧
    (∀ l : Int, 1000 < l → appliedLimit l = 1000) ∧
    (∀ l : Int, 1 ≤ l → l ≤ 1000 → appliedLimit l = l) ∧
    appliedLimit 0 = 1 ∧ appliedLimit (-7) = 1 ∧ appliedLimit 5000 = 1000 ∧
    appliedLimit defaultLimit = defaultLimit := by
  refine ⟨fun l => rfl, ?_, ?_, ?_, by decide, by decide, by decide, by decide⟩ <;>
    intro l <;> unfold appliedLimit <;> intros <;> omega

/-- Witness for C8 at the concrete limit `-3`. -/
theorem C8_limit_clamp_witness : appliedLimit (-3) = 1 :=
  C8_limit_clamp.2.1 (-3) (by decide)

/-- Claim C4: comparison-value coercion is purely syntactic: a value that
case-insensitively equals `true`/`false` becomes a boolean; otherwise a
value containing no `.` is parsed as an integer and one containing `.` as a
float, keeping the raw string on parse failure.  In particular
`price > 100` compiles to a `$gt` comparison of `data.price` against the
number `100`, scoped to the dataset. -/
theorem C4_value_coercion :
    (∀ val : List Char, lowerL val = trueL → vCast val = QVal.bool true) ∧
    (∀ val : List Char, lowerL val = falseL → vCast val = QVal.bool false) ∧
    (∀ val : List Char, lowerL val ≠ trueL → lowerL val ≠ falseL →
      val.contains '.' = false →
      (∀ n : Int, pyIntParse val = some n → vCast val = QVal.int n) ∧
      (pyIntParse val = none → vCast val = QVal.str val)) ∧
    (∀ val : List Char, lowerL val ≠ trueL → lowerL val ≠ falseL →
      val.contains '.' = true →
      (∀ f : PyFloat, pyFloatParse val = some f → vCast val = QVal.float f) ∧
      (pyFloatParse val = none → vCast val = QVal.str val)) ∧
    compileFilter dsD qPrice =
      Filter.andFilter dsD [Cond.compare fieldPrice MongoOp.gt (QVal.int 100)] := by
  refine ⟨?_, ?_, ?_, ?_, by decide⟩
  · intro val h
    unfold vCast
    rw [h]
    rfl
  · intro val h
    unfold vCast
    rw [h]
    rfl
  · intro val h1 h2 h3
    have e1 : (decide (lowerL val = trueL) || decide (lowerL val = falseL)) = false := by
      simp [h1, h2]
    constructor
    · intro n hn
      unfold vCast
      rw [e1, h3, hn]
      rfl
    · intro hn
      unfold vCast
      rw [e1, h3, hn]
      rfl
  · intro val h1 h2 h3
    have e1 : (decide (lowerL val = trueL) || decide (lowerL val = falseL)) = false := by
      simp [h1, h2]
    constructor
    · intro f hf
      unfold vCast
      rw [e1, h3, hf]
      rfl
    · intro hf
      unfold vCast
      rw [e1, h3, hf]
      rfl

/-- Witness for C4 at the concrete values `true` and `nan`. -/
theorem C4_value_coercion_witness : vCast valTrue = QVal.bool true ∧ vCast vNan = QVal.str vNan := by
  constructor
  · exact C4_value_coercion.1 valTrue (by decide)
  · exact (C4_value_coercion.2.2.1 vNan (by decide) (by decide) (by decide)).2 (by decide)

/-- Claim C6: the per-cell type-detection heuristic applies its six rules
in order with the first match winning: empty/missing → string;
`true`/`false` (any case) → boolean; integer literal → number; else float
literal → number; else a `-` or `/` together with a digit → date;
otherwise string.  `firstRuleTag` evaluates exactly the first applicable
rule of the ordered `detectionRules` list, and coincides with `infer_type`
on every input; the explicit implications spell out first-match-wins, and
the examples separate the rules (`-5` matches both rule 3 and rule 5 and
gets rule 3's tag). -/
theorem C6_rule_order :
    (∀ v, infer_type v = firstRuleTag v) ∧
    (∀ v, ruleEmpty v = true → infer_type v = tagString) ∧
    (∀ v, ruleEmpty v = false → ruleBool v = true → infer_type v = tagBoolean) ∧
    (∀ v, ruleEmpty v = false → ruleBool v = false → ruleInt v = true →
      infer_type v = tagNumber) ∧
    (∀ v, ruleEmpty v = false → ruleBool v = false → ruleInt v = false →
      ruleFloat v = true → infer_type v = tagNumber) ∧
    (∀ v, ruleEmpty v = false → ruleBool v = false → ruleInt v = false →
      ruleFloat v = false → ruleDate v = true → infer_type v = tagDate) ∧
    (∀ v, ruleEmpty v = false → ruleBool v = false → ruleInt v = false →
      ruleFloat v = false → ruleDate v = false → infer_type v = tagString) ∧
    infer_type none = tagString ∧
    infer_type (some vPadTrue) = tagBoolean ∧
    infer_type (some vNeg5) = tagNumber ∧
    infer_type (some vDate) = tagDate ∧
    infer_type (some vNan) = tagNumber ∧
    infer_type (some vDec) = tagNumber ∧
    infer_type (some vSlash) = tagDate ∧
    infer_type (some vHello) = tagString := by
  have key : ∀ v, infer_type v = firstRuleTag v := by
    intro v
    cases v with
    | none => rfl
    | some s =>
      unfold infer_type firstRuleTag detectionRules
      simp only [List.find?]
      unfold ruleEmpty ruleBool ruleInt ruleFloat ruleDate
      cases h1 : s.isEmpty with
      | true => simp [h1]
      | false =>
        simp only [h1, Bool.false_eq_true, if_false]
        cases h2 : (decide (lowerL (strip s) = trueL) || decide (lowerL (strip s) = falseL)) with
        | true => simp [h2]
        | false =>
          simp only [h2, Bool.false_eq_true, if_false]
          cases h3 : (pyIntParse (strip s)).isSome with
          | true => simp [h3]
          | false =>
            simp only [h3, Bool.false_eq_true, if_false]
            cases h4 : (pyFloatParse (strip s)).isSome with
            | true => simp [h4]
            | false =>
              simp only [h4, Bool.false_eq_true, if_false]
              cases h5 : (((strip s).contains '-' || (strip s).contains '/') &&
                  (strip s).any Char.isDigit) with
              | true => simp [h5]
              | false => simp [h5]
  refine ⟨key, ?_, ?_, ?_, ?_, ?_, ?_,
    by decide, by decide, by decide, by decide, by decide, by decide, by decide, by decide⟩
  · intro v h1
    rw [key v]
    unfold firstRuleTag detectionRules
    simp [List.find?, h1]
  · intro v h1 h2
    rw [key v]
    unfold firstRuleTag detectionRules
    simp [List.find?, h1, h2]
  · intro v h1 h2 h3
    rw [key v]
    unfold firstRuleTag detectionRules
    simp [List.find?, h1, h2, h3]
  · intro v h1 h2 h3 h4
    rw [key v]
    unfold firstRuleTag detectionRules
    simp [List.find?, h1, h2, h3, h4]
  · intro v h1 h2 h3 h4 h5
    rw [key v]
    unfold firstRuleTag detectionRules
    simp [List.find?, h1, h2, h3, h4, h5]
  · intro v h1 h2 h3 h4 h5
    rw [key v]
    unfold firstRuleTag detectionRules
    simp [List.find?, h1, h2, h3, h4, h5]

/-- Witness for C6: rule 3 fires first on `-5` although rule 5 also
applies. -/
theorem C6_rule_order_witness : infer_type (some vNeg5) = tagNumber :=
  C6_rule_order.2.2.2.1 (some vNeg5) (by decide) (by decide) (by decide)

/-- Claim C3: malformed clauses are silently dropped and never affect
well-formed ones: a `contains` clause with fewer than three whitespace
tokens compiles to nothing, a clause with no operator token compiles to
nothing, clause compilation distributes over the clause list (so dropping
one clause leaves the others intact), and
`contains name John and age >= 30` compiles to exactly the two expected
clauses plus the dataset scope, while dropping a malformed first clause
keeps the second. -/
theorem C3_malformed_drop :
    (∀ c : List Char, hasPrefixL containsTok (lowerL c) = true →
      (splitWs c).length < 3 → compileClause c = none) ∧
    (∀ c : List Char, hasPrefixL containsTok (lowerL c) = false →
      (∀ op ∈ OPS, substrSearch op c = false) → compileClause c = none) ∧
    (∀ (l1 l2 : List (List Char)) (c : List Char), compileClause c = none →
      (l1 ++ c :: l2).filterMap compileClause = (l1 ++ l2).filterMap compileClause) ∧
    compileFilter dsD qContainsAge =
      Filter.andFilter dsD [Cond.regex fieldName valJohn true,
        Cond.compare fieldAge MongoOp.gte (QVal.int 30)] ∧
    compileFilter dsD qPartial =
      Filter.andFilter dsD [Cond.compare fieldAge MongoOp.gte (QVal.int 30)] ∧
    compileFilter dsD qContainsShort = Filter.byDataset dsD := by
  refine ⟨?_, ?_, ?_, by decide, by decide, by decide⟩
  · intro c h1 h2
    unfold compileClause
    simp only [h1, if_true]
    rcases hsp : splitWs c with _ | ⟨t1, _ | ⟨t2, rest⟩⟩
    · rfl
    · rfl
    · rw [hsp] at h2
      cases rest with
      | nil => rfl
      | cons t3 rest' => simp at h2; omega
  · intro c h1 h2
    unfold compileClause
    simp only [h1, Bool.false_eq_true, if_false]
    have hnone : OPS.find? (fun op => substrSearch op c) = none := by
      rw [List.find?_eq_none]
      intro x hx
      simp [h2 x hx]
    rw [hnone]
  · intro l1 l2 c h
    simp [List.filterMap_append, List.filterMap_cons, h]

/-- Witness for C3: a two-token `contains` clause compiles to nothing. -/
theorem C3_malformed_drop_witness : compileClause qContainsShort = none :=
  C3_malformed_drop.1 qContainsShort (by decide) (by decide)

theorem OPS_find_no_ne {c op : List Char}
    (h : OPS.find? (fun o => substrSearch o c) = some op) : op ≠ opNe := by
  have hne : substrSearch opNe c = true → substrSearch opEq c = true := fun hh =>
    substrSearch_part (a := ['!']) (b := opEq) hh
  intro heq
  subst heq
  simp only [OPS, List.find?] at h
  split at h
  · simp [opGe, opNe] at h
  · split at h
    · simp [opLe, opNe] at h
    · split at h
      · simp [opGt, opNe] at h
      · split at h
        · simp [opLt, opNe] at h
        · split at h
          · simp [opEq, opNe] at h
          · split at h
            · simp_all
            · split at h
              · simp [opIs, opNe] at h
              · simp at h

theorem mongoMap_no_ne {op : List Char} {m : MongoOp}
    (h : mongoMap (opNorm op) = some m) (hne : op ≠ opNe) : m ≠ MongoOp.ne := by
  unfold opNorm at h
  by_cases hs : strip op = isWord
  · rw [if_pos hs] at h
    have : m = MongoOp.eq := by
      have : mongoMap opEq = some MongoOp.eq := rfl
      rw [this] at h
      exact (Option.some.injEq _ _).mp h.symm
    simp [this]
  · rw [if_neg hs] at h
    unfold mongoMap at h
    split_ifs at h with h1 h2 h3 h4 h5
    all_goals first
      | (exact absurd h2 hne)
      | (intro hm
         injection h with h'
         simp_all)

/-- Claim C2 (amended): the operator scan checks `"="` before `"!="`, and
every occurrence of `"!="` contains `"="`, so the scan never selects
`"!="`: no compiled clause is ever a `$ne` comparison, and a clause of the
form `col != value` splits at the `=` inside `!=`, producing an *equality*
comparison whose column is the trimmed `col !` — as the concrete compile of
`a != 5` shows. -/
theorem C2_no_ne_clause :
    (∀ (c : List Char) (cond : Cond), compileClause c = some cond →
      isNeCond cond = false) ∧
    compileFilter dsD qNe =
      Filter.andFilter dsD [Cond.compare fieldABang MongoOp.eq (QVal.int 5)] := by
  refine ⟨?_, by decide⟩
  intro c cond h
  unfold compileClause at h
  by_cases hp : hasPrefixL containsTok (lowerL c) = true
  · simp only [hp, if_true] at h
    split at h
    · split at h
      · simp at h
      · injection h with h'
        rw [← h']
        rfl
    · simp at h
  · have hpf : hasPrefixL containsTok (lowerL c) = false := by
      simpa using hp
    simp only [hpf, Bool.false_eq_true, if_false] at h
    split at h
    · simp at h
    · next op heq =>
      have hop : op ≠ opNe := OPS_find_no_ne heq
      split at h
      · simp at h
      · split at h
        · simp at h
        · next m hm =>
          injection h with h'
          rw [← h']
          have := mongoMap_no_ne hm hop
          unfold isNeCond
          cases m <;> simp_all

/-- Counterexample for C2 as stated: `a != 5` does not compile to a
not-equal comparison on `data.a`; it compiles to an equal comparison on the
column literally named `a !`. -/
theorem C2_counterexample :
    compileFilter dsD qNe ≠
      Filter.andFilter dsD [Cond.compare fieldA MongoOp.ne (QVal.int 5)] ∧
    compileFilter dsD qNe =
      Filter.andFilter dsD [Cond.compare fieldABang MongoOp.eq (QVal.int 5)] := by
  constructor
  · decide
  · decide

/-- Witness for C2 (amended) at the concrete clause `x > 1`. -/
theorem C2_no_ne_clause_witness :
    isNeCond (Cond.compare fieldX MongoOp.gt (QVal.int 1)) = false :=
  C2_no_ne_clause.1 clXGt1 (Cond.compare fieldX MongoOp.gt (QVal.int 1)) (by decide)

theorem matchHere_literal {pat : List Char} (hp : ∀ c ∈ pat, (c == '.') = false) :
    ∀ t, matchHere pat t = hasPrefixL (lowerL pat) (lowerL t) := by
  induction pat with
  | nil =>
    intro t
    simp [matchHere, lowerL, hasPrefixL]
  | cons p ps ih =>
    intro t
    cases t with
    | nil => rfl
    | cons c cs =>
      have hdot : (p == '.') = false := hp p (List.mem_cons_self _ _)
      show (charMatchCI p c && matchHere ps cs) = _
      rw [ih (fun x hx => hp x (List.mem_cons_of_mem _ hx)) cs]
      unfold charMatchCI
      rw [hdot, Bool.false_or]
      rfl

theorem regexSearchCI_literal {pat : List Char} (hp : ∀ c ∈ pat, (c == '.') = false) :
    ∀ s, regexSearchCI pat s = substrCI pat s := by
  intro s
  induction s with
  | nil =>
    cases pat with
    | nil => rfl
    | cons p ps => rfl
  | cons c cs ih =>
    show (matchHere pat (c :: cs) || regexSearchCI pat cs) = _
    rw [matchHere_literal hp, ih]
    rfl

/-- Claim C9 (amended): a `contains` clause hands the raw value to the
storage layer as a case-insensitive `$regex` *pattern*, not as a literal
substring.  For a value free of regex metacharacters the regex search
coincides with case-insensitive substring containment; a value containing
a metacharacter (such as `.`) is matched as a pattern, as the compile of
`contains name a.c` and its behaviour on the record value `abc` show. -/
theorem C9_contains_is_regex :
    (∀ (pat s : List Char), (∀ c ∈ pat, c ∉ regexMeta) →
      regexSearchCI pat s = substrCI pat s) ∧
    compileClause clContainsDot = some (Cond.regex fieldName patDot true) := by
  refine ⟨?_, by decide⟩
  intro pat s h
  apply regexSearchCI_literal
  intro c hc
  have : c ∉ regexMeta := h c hc
  have hne : c ≠ '.' := by
    intro rfl'
    exact this (by rw [rfl']; decide)
  simp [hne]

/-- Counterexample for C9 as stated: the value `a.c` compiles into the
regex pattern of the `contains` condition, and that condition matches the
record value `abc` (the `.` matches `b`) although `abc` does not contain
`a.c` as a substring, case-insensitively or otherwise. -/
theorem C9_counterexample :
    compileClause clContainsDot = some (Cond.regex fieldName patDot true) ∧
    regexSearchCI patDot txtAbc = true ∧
    substrCI patDot txtAbc = false := by
  refine ⟨by decide, by decide, by decide⟩

/-- Witness for C9 (amended) at the metacharacter-free pattern `john`. -/
theorem C9_contains_is_regex_witness :
    regexSearchCI patJohn txtJohn = substrCI patJohn txtJohn :=
  C9_contains_is_regex.1 patJohn txtJohn (by decide)

theorem utf8Go_agree :
    ∀ (fuel : Nat) (bs : List Nat) (cs : List Char), bs.length ≤ fuel →
    utf8DecodeStrictGo fuel bs = some cs → utf8DecodeIgnoreGo fuel bs = cs := by
  intro fuel
  induction fuel with
  | zero =>
    intro bs cs hlen h
    have hb : bs = [] := List.length_eq_zero.mp (Nat.le_zero.mp hlen)
    subst hb
    simp only [utf8DecodeStrictGo, Option.some.injEq] at h
    simp [utf8DecodeIgnoreGo, ← h]
  | succ n ih =>
    intro bs cs hlen h
    cases bs with
    | nil =>
      simp only [utf8DecodeStrictGo, Option.some.injEq] at h
      simp [utf8DecodeIgnoreGo, ← h]
    | cons b rest =>
      simp only [utf8DecodeStrictGo] at h
      simp only [utf8DecodeIgnoreGo]
      cases hseq : utf8Seq b rest with
      | none => simp [hseq] at h
      | some cr =>
        simp only [hseq] at h ⊢
        rcases Option.map_eq_some'.mp h with ⟨cs', hcs', rfl⟩
        have hlen' : (rest.drop cr.2).length ≤ n := by
          simp only [List.length_drop]
          simp only [List.length_cons] at hlen
          omega
        rw [ih (rest.drop cr.2) cs' hlen' hcs']

/-- Claim C10: the upload decoding step never fails.  Decoding with UTF-8
and `errors="ignore"` is total, so the modelled decode step returns `ok`
for every byte sequence and the `"Unable to decode file as UTF-8"` branch
is unreachable; on every strictly valid input the lenient decode agrees
with strict decoding, and on an invalid input (byte `255`) it simply drops
the bad byte where strict decoding fails. -/
theorem C10_decode_total :
    (∀ bs : List Nat, upload_decode bs = Except.ok (utf8DecodeIgnore bs)) ∧
    (∀ (bs : List Nat) (e : String), upload_decode bs ≠ Except.error e) ∧
    (∀ (bs : List Nat) (cs : List Char), utf8DecodeStrict bs = some cs →
      upload_decode bs = Except.ok cs) ∧
    upload_decode [65, 255, 66] = Except.ok ['A', 'B'] ∧
    utf8DecodeStrict [65, 255, 66] = none := by
  refine ⟨fun bs => rfl, ?_, ?_, by rfl, by rfl⟩
  · intro bs e h
    simp [upload_decode] at h
  · intro bs cs h
    have := utf8Go_agree bs.length bs cs (Nat.le_refl _) h
    unfold upload_decode utf8DecodeIgnore
    rw [this]

/-- Witness for C10 on the valid input `A` (byte 65). -/
theorem C10_decode_total_witness : upload_decode [65] = Except.ok ['A'] :=
  C10_decode_total.2.2.1 [65] ['A'] (by decide)

/-! ## Lemmas about the vote tally (claim C5) -/

theorem firstIdx_lt_length {t : String} :
    ∀ {ts : List String}, t ∈ ts → firstIdx t ts < ts.length := by
  intro ts
  induction ts with
  | nil => intro h; simp at h
  | cons x xs ih =>
    intro h
    unfold firstIdx
    by_cases hx : x = t
    · simp [hx]
    · rcases List.mem_cons.mp h with rfl | hmem
      · exact absurd rfl hx
      · simp only [hx, if_false, List.length_cons]
        exact Nat.succ_lt_succ (ih hmem)

theorem firstIdx_append_mem {t : String} (x : String) :
    ∀ {ts : List String}, t ∈ ts → firstIdx t (ts ++ [x]) = firstIdx t ts := by
  intro ts
  induction ts with
  | nil => intro h; simp at h
  | cons y ys ih =>
    intro h
    unfold firstIdx
    by_cases hy : y = t
    · simp [hy]
    · rcases List.mem_cons.mp h with rfl | hmem
      · exact absurd rfl hy
      · simp only [List.cons_append, hy, if_false]
        rw [ih hmem]

theorem firstIdx_append_new {t : String} :
    ∀ {ts : List String}, t ∉ ts → firstIdx t (ts ++ [t]) = ts.length := by
  intro ts
  induction ts with
  | nil => intro _; simp [firstIdx]
  | cons y ys ih =>
    intro h
    have hy : y ≠ t := fun hh => h (hh ▸ List.mem_cons_self _ _)
    unfold firstIdx
    simp only [List.cons_append, hy, if_false, List.length_cons]
    rw [ih (fun hh => h (List.mem_cons_of_mem _ hh))]

theorem bump_absent {t : String} :
    ∀ {A : List (String × Nat)}, t ∉ A.map Prod.fst → bump A t = A ++ [(t, 1)] := by
  intro A
  induction A with
  | nil => intro _; rfl
  | cons p rest ih =>
    intro h
    have hp : p.1 ≠ t := fun hh => h (by simp [hh])
    obtain ⟨k, n⟩ := p
    unfold bump
    simp only at hp
    simp only [hp, if_false, List.cons_append, List.cons.injEq, true_and]
    exact ih (fun hh => h (by simp [hh]))

theorem bump_present {t : String} :
    ∀ {A : List (String × Nat)}, (A.map Prod.fst).Nodup → t ∈ A.map Prod.fst →
    (bump A t).map Prod.fst = A.map Prod.fst ∧
    (∀ p ∈ bump A t,
      (p.1 = t ∧ ∃ n, (t, n) ∈ A ∧ p.2 = n + 1) ∨ (p ∈ A ∧ p.1 ≠ t)) := by
  intro A
  induction A with
  | nil => intro _ h; simp at h
  | cons q rest ih =>
    intro hnd hmem
    obtain ⟨k, n⟩ := q
    simp only [List.map_cons, List.nodup_cons] at hnd
    by_cases hk : k = t
    · subst hk
      have hb : bump ((k, n) :: rest) k = (k, n + 1) :: rest := by
        simp only [bump]
        simp
      constructor
      · rw [hb]
        simp
      · intro p hp
        rw [hb] at hp
        rcases List.mem_cons.mp hp with rfl | hp2
        · exact Or.inl ⟨rfl, n, List.mem_cons_self _ _, rfl⟩
        · right
          refine ⟨List.mem_cons_of_mem _ hp2, ?_⟩
          intro hpt
          exact hnd.1 (hpt ▸ List.mem_map_of_mem Prod.fst hp2)
    · have hmem' : t ∈ rest.map Prod.fst := by
        rcases List.mem_cons.mp hmem with h1 | h2
        · exact absurd h1.symm hk
        · exact h2
      have hb : bump ((k, n) :: rest) t = (k, n) :: bump rest t := by
        simp only [bump]
        simp [hk]
      rcases ih hnd.2 hmem' with ⟨ihk, ihm⟩
      constructor
      · rw [hb]
        simp only [List.map_cons, ihk]
      · intro p hp
        rw [hb] at hp
        rcases List.mem_cons.mp hp with rfl | hp2
        · exact Or.inr ⟨List.mem_cons_self _ _, hk⟩
        · rcases ihm p hp2 with ⟨h1, nn, h2, h3⟩ | ⟨h1, h2⟩
          · exact Or.inl ⟨h1, nn, List.mem_cons_of_mem _ h2, h3⟩
          · exact Or.inr ⟨List.mem_cons_of_mem _ h1, h2⟩

theorem tallyTags_inv (ts : List String) :
    (∀ p ∈ tallyTags ts, p.2 = ts.count p.1) ∧
    (∀ t : String, t ∈ ts ↔ t ∈ (tallyTags ts).map Prod.fst) ∧
    ((tallyTags ts).map Prod.fst).Pairwise (fun a b => firstIdx a ts < firstIdx b ts) := by
  induction ts using List.reverseRecOn with
  | nil => exact ⟨by simp [tallyTags], by simp [tallyTags], by simp [tallyTags]⟩
  | append_singleton ts t ih =>
    obtain ⟨i1, i2, i3⟩ := ih
    have hnd : ((tallyTags ts).map Prod.fst).Nodup :=
      i3.imp (fun h heq => by subst heq; exact Nat.lt_irrefl _ h)
    have htt : tallyTags (ts ++ [t]) = bump (tallyTags ts) t := by
      simp [tallyTags, List.foldl_append]
    have hcnt_t : (ts ++ [t]).count t = ts.count t + 1 := by
      simp
    have hcnt_ne : ∀ u : String, u ≠ t → (ts ++ [t]).count u = ts.count u := by
      intro u hu
      simp [List.count_append, List.count_cons, hu]
    by_cases hmem : t ∈ (tallyTags ts).map Prod.fst
    · obtain ⟨hkeys, hmems⟩ := bump_present hnd hmem
      refine ⟨?_, ?_, ?_⟩
      · intro p hp
        rw [htt] at hp
        rcases hmems p hp with ⟨hpt, n, hnA, hp2⟩ | ⟨hpA, hpne⟩
        · have hn := i1 (t, n) hnA
          simp only at hn
          rw [hpt, hcnt_t, hp2, hn]
        · rw [hcnt_ne p.1 hpne]
          exact i1 p hpA
      · intro u
        rw [htt, hkeys]
        constructor
        · intro hu
          rcases List.mem_append.mp hu with hu | hu
          · exact (i2 u).mp hu
          · rw [List.mem_singleton.mp hu]
            exact hmem
        · intro hu
          exact List.mem_append.mpr (Or.inl ((i2 u).mpr hu))
      · rw [htt, hkeys]
        refine List.Pairwise.imp_of_mem ?_ i3
        intro a b ha hb hab
        have ha' : a ∈ ts := (i2 a).mpr ha
        have hb' : b ∈ ts := (i2 b).mpr hb
        rw [firstIdx_append_mem t ha', firstIdx_append_mem t hb']
        exact hab
    · have htnot : t ∉ ts := fun hh => hmem ((i2 t).mp hh)
      have hbump : bump (tallyTags ts) t = tallyTags ts ++ [(t, 1)] := bump_absent hmem
      refine ⟨?_, ?_, ?_⟩
      · intro p hp
        rw [htt, hbump] at hp
        rcases List.mem_append.mp hp with hp | hp
        · have hpne : p.1 ≠ t := fun hh =>
            hmem (hh ▸ List.mem_map_of_mem Prod.fst hp)
          rw [hcnt_ne p.1 hpne]
          exact i1 p hp
        · rw [List.mem_singleton.mp hp]
          simp only
          rw [hcnt_t, List.count_eq_zero.mpr htnot]
      · intro u
        rw [htt, hbump, List.map_append]
        constructor
        · intro hu
          rcases List.mem_append.mp hu with hu | hu
          · exact List.mem_append.mpr (Or.inl ((i2 u).mp hu))
          · rw [List.mem_singleton.mp hu]
            exact List.mem_append.mpr (Or.inr (by simp))
        · intro hu
          rcases List.mem_append.mp hu with hu | hu
          · exact List.mem_append.mpr (Or.inl ((i2 u).mpr hu))
          · simp only [List.map_cons, List.map_nil, List.mem_singleton] at hu
            rw [hu]
            exact List.mem_append.mpr (Or.inr (by simp))
      · rw [htt, hbump, List.map_append]
        rw [List.pairwise_append]
        refine ⟨?_, by simp, ?_⟩
        · refine List.Pairwise.imp_of_mem ?_ i3
          intro a b ha hb hab
          rw [firstIdx_append_mem t ((i2 a).mpr ha), firstIdx_append_mem t ((i2 b).mpr hb)]
          exact hab
        · intro a ha b hb
          simp only [List.map_cons, List.map_nil, List.mem_singleton] at hb
          rw [hb, firstIdx_append_new htnot, firstIdx_append_mem t ((i2 a).mpr ha)]
          exact firstIdx_lt_length ((i2 a).mpr ha)

theorem foldl_pick_spec :
    ∀ (R : List (String × Nat)) (b : String × Nat),
    ∃ pre post, b :: R = pre ++ R.foldl pick b :: post ∧
      (∀ p ∈ pre, p.2 < (R.foldl pick b).2) ∧
      (∀ p ∈ post, p.2 ≤ (R.foldl pick b).2) := by
  intro R
  induction R with
  | nil =>
    intro b
    exact ⟨[], [], rfl, by simp, by simp⟩
  | cons y R' ih =>
    intro b
    rcases ih (pick b y) with ⟨pre', post', hdecomp, hpre, hpost⟩
    simp only [List.foldl_cons]
    by_cases hy : y.2 > b.2
    · have hpick : pick b y = y := by unfold pick; simp [hy]
      rw [hpick] at hdecomp hpre hpost ⊢
      cases pre' with
      | nil =>
        simp only [List.nil_append] at hdecomp
        have hres : R'.foldl pick y = y := ((List.cons.injEq _ _ _ _).mp hdecomp).1.symm
        refine ⟨[b], post', ?_, ?_, hpost⟩
        · simpa using congrArg (List.cons b) hdecomp
        · intro p hp
          rw [List.mem_singleton.mp hp, hres]
          exact hy
      | cons z pre'' =>
        have hparts := hdecomp
        simp only [List.cons_append, List.cons.injEq] at hparts
        have hz : y = z := hparts.1
        have hyv : y.2 < (R'.foldl pick y).2 := by
          have := hpre z (List.mem_cons_self _ _)
          rw [← hz] at this
          exact this
        refine ⟨b :: z :: pre'', post', ?_, ?_, hpost⟩
        · simpa using congrArg (List.cons b) hdecomp
        · intro p hp
          rcases List.mem_cons.mp hp with rfl | hp2
          · exact Nat.lt_trans hy hyv
          · exact hpre p hp2
    · have hpick : pick b y = b := by unfold pick; simp [hy]
      rw [hpick] at hdecomp hpre hpost ⊢
      have hyb : y.2 ≤ b.2 := Nat.le_of_not_lt hy
      cases pre' with
      | nil =>
        simp only [List.nil_append] at hdecomp
        have hres : R'.foldl pick b = b := ((List.cons.injEq _ _ _ _).mp hdecomp).1.symm
        have hpost' : post' = R' := ((List.cons.injEq _ _ _ _).mp hdecomp).2.symm
        refine ⟨[], y :: R', ?_, by simp, ?_⟩
        · rw [List.nil_append, hres]
        · intro p hp
          rcases List.mem_cons.mp hp with rfl | hp2
          · rw [hres]
            exact hyb
          · exact hpost p (hpost' ▸ hp2)
      | cons z pre'' =>
        have hparts := hdecomp
        simp only [List.cons_append, List.cons.injEq] at hparts
        have hz : b = z := hparts.1
        have hrest : R' = pre'' ++ R'.foldl pick b :: post' := hparts.2
        have hbv : b.2 < (R'.foldl pick b).2 := by
          have := hpre z (List.mem_cons_self _ _)
          rw [← hz] at this
          exact this
        refine ⟨b :: y :: pre'', post', ?_, ?_, hpost⟩
        · simpa using congrArg (fun l => b :: y :: l) hrest
        · intro p hp
          rcases List.mem_cons.mp hp with rfl | hp2
          · exact hbv
          · rcases List.mem_cons.mp hp2 with rfl | hp3
            · exact Nat.lt_of_le_of_lt hyb hbv
            · exact hpre p (List.mem_cons_of_mem _ hp3)

theorem tally_firstMax_spec (ts : List String) (hne : ts ≠ []) :
    ∃ res : String × Nat, firstMax (tallyTags ts) = some res ∧
      res.1 ∈ ts ∧
      (∀ t ∈ ts, ts.count t ≤ ts.count res.1) ∧
      (∀ t ∈ ts, ts.count t = ts.count res.1 → firstIdx res.1 ts ≤ firstIdx t ts) := by
  obtain ⟨i1, i2, i3⟩ := tallyTags_inv ts
  obtain ⟨t0, ht0⟩ := List.exists_mem_of_ne_nil ts hne
  have hkeys0 : t0 ∈ (tallyTags ts).map Prod.fst := (i2 t0).mp ht0
  cases hAeq : tallyTags ts with
  | nil =>
    rw [hAeq] at hkeys0
    simp at hkeys0
  | cons a R =>
    obtain ⟨pre, post, hdec, hpre, hpost⟩ := foldl_pick_spec R a
    rw [hAeq] at i1 i2 i3
    have hresA : R.foldl pick a ∈ a :: R := by
      rw [hdec]
      exact List.mem_append.mpr (Or.inr (List.mem_cons_self _ _))
    have hresCnt : (R.foldl pick a).2 = ts.count (R.foldl pick a).1 := i1 _ hresA
    have hmemOf : ∀ t ∈ ts, ∃ p, p ∈ a :: R ∧ p.1 = t := by
      intro t ht
      rcases List.mem_map.mp ((i2 t).mp ht) with ⟨p, hp, hp1⟩
      exact ⟨p, hp, hp1⟩
    refine ⟨R.foldl pick a, by simp [firstMax], ?_, ?_, ?_⟩
    · exact (i2 _).mpr (List.mem_map_of_mem Prod.fst hresA)
    · intro t ht
      rcases hmemOf t ht with ⟨p, hp, hp1⟩
      have hpc : p.2 = ts.count t := hp1 ▸ i1 p hp
      rw [hdec] at hp
      rw [← hpc, ← hresCnt]
      rcases List.mem_append.mp hp with hp' | hp'
      · exact Nat.le_of_lt (hpre p hp')
      · rcases List.mem_cons.mp hp' with heq | hp''
        · rw [heq]
        · exact hpost p hp''
    · intro t ht hcnt
      rcases hmemOf t ht with ⟨p, hp, hp1⟩
      have hpc : p.2 = ts.count t := hp1 ▸ i1 p hp
      rw [hdec] at hp
      have hpres : p.2 = (R.foldl pick a).2 := by
        rw [hpc, hcnt, ← hresCnt]
      rcases List.mem_append.mp hp with hp' | hp'
      · exact absurd hpres (Nat.ne_of_lt (hpre p hp'))
      · rcases List.mem_cons.mp hp' with heq | hp''
        · rw [← hp1, heq]
        · have hkeys : ((pre ++ R.foldl pick a :: post).map Prod.fst).Pairwise
              (fun x y => firstIdx x ts < firstIdx y ts) := by
            rw [← hdec]
            exact i3
          rw [List.map_append, List.map_cons] at hkeys
          have hcross := (List.pairwise_append.mp hkeys).2.1
          have htail := (List.pairwise_cons.mp hcross).1
          have : firstIdx (R.foldl pick a).1 ts < firstIdx p.1 ts :=
            htail p.1 (List.mem_map_of_mem Prod.fst hp'')
          rw [← hp1]
          exact Nat.le_of_lt this

/-- Claim C5: for every column the final inferred type is the tag with the
most votes among the sampled cell tags, ties broken by the tag whose first
occurrence came earlier in the sample, and an empty sample defaults to
`"string"`; a 50/50 split resolves to the earlier-first-occurring tag, in
both orders. -/
theorem C5_majority_vote :
    columnType [] = tagString ∧
    (∀ vals : List (Option (List Char)), vals ≠ [] →
      columnType vals ∈ vals.map infer_type ∧
      (∀ t ∈ vals.map infer_type,
        (vals.map infer_type).count t ≤ (vals.map infer_type).count (columnType vals)) ∧
      (∀ t ∈ vals.map infer_type,
        (vals.map infer_type).count t = (vals.map infer_type).count (columnType vals) →
        firstIdx (columnType vals) (vals.map infer_type) ≤ firstIdx t (vals.map infer_type))) ∧
    (∀ (rows : List Row) (c : List Char),
      inferColumnType rows c = columnType ((rows.take sampleLimit).map (fun r => rowGet r c))) ∧
    columnType exTie1 = tagNumber ∧
    columnType exTie2 = tagString := by
  refine ⟨by decide, ?_, fun rows c => rfl, by decide, by decide⟩
  intro vals hvne
  have hts : vals.map infer_type ≠ [] := by
    intro h
    exact hvne (List.map_eq_nil_iff.mp h)
  obtain ⟨res, hfm, h1, h2, h3⟩ := tally_firstMax_spec (vals.map infer_type) hts
  have hct : columnType vals = res.1 := by
    unfold columnType
    rw [hfm]
  rw [hct]
  exact ⟨h1, h2, h3⟩

/-- Witness for C5 at the concrete 50/50 sample `1, x, 2, y`. -/
theorem C5_majority_vote_witness : columnType exTie1 ∈ exTie1.map infer_type :=
  (C5_majority_vote.2.1 exTie1 (by decide)).1

theorem andSep_absent {col val : List Char}
    (hcw : ∀ c ∈ col, ws c = false) (hvw : ∀ c ∈ val, ws c = false) :
    substrSearch andSep (col ++ opIs ++ val) = false ∧
    substrSearch andSep (col ++ eqPad ++ val) = false := by
  have hcolSp : ∀ c ∈ col, c ≠ ' ' := by
    intro c hc heq
    have := hcw c hc
    rw [heq] at this
    simp [ws] at this
  have hvalSp : ∀ c ∈ val, c ≠ ' ' := by
    intro c hc heq
    have := hvw c hc
    rw [heq] at this
    simp [ws] at this
  have hpand : hasPrefixL ['a', 'n', 'd', ' '] val = false := by
    cases hh : hasPrefixL ['a', 'n', 'd', ' '] val with
    | false => rfl
    | true =>
      have hmem : ' ' ∈ val := hasPrefixL_mem hh (by decide)
      exact absurd rfl (hvalSp ' ' hmem)
  have hvalf : substrSearch andSep val = false :=
    substrSearch_absent (x := ' ') (by decide) hvalSp
  have hsep : andSep = ' ' :: ['a', 'n', 'd', ' '] := rfl
  constructor
  · rw [List.append_assoc, hsep, substrSearch_skip hcolSp, ← hsep]
    show substrSearch andSep (' ' :: 'i' :: 's' :: ' ' :: val) = false
    have f1 : hasPrefixL andSep (' ' :: 'i' :: 's' :: ' ' :: val) = false := rfl
    have f2 : hasPrefixL andSep ('i' :: 's' :: ' ' :: val) = false := rfl
    have f3 : hasPrefixL andSep ('s' :: ' ' :: val) = false := rfl
    have f4 : hasPrefixL andSep (' ' :: val) = hasPrefixL ['a', 'n', 'd', ' '] val := rfl
    simp only [substrSearch, f1, f2, f3, f4, hpand, hvalf, Bool.or_false, Bool.false_or]
  · rw [List.append_assoc, hsep, substrSearch_skip hcolSp, ← hsep]
    show substrSearch andSep (' ' :: '=' :: ' ' :: val) = false
    have g1 : hasPrefixL andSep (' ' :: '=' :: ' ' :: val) = false := rfl
    have g2 : hasPrefixL andSep ('=' :: ' ' :: val) = false := rfl
    have g3 : hasPrefixL andSep (' ' :: val) = hasPrefixL ['a', 'n', 'd', ' '] val := rfl
    simp only [substrSearch, g1, g2, g3, hpand, hvalf, Bool.or_false, Bool.false_or]

theorem plain_clausesOf {col val : List Char}
    (hc0 : col ≠ []) (hv0 : val ≠ [])
    (hcw : ∀ c ∈ col, ws c = false) (hvw : ∀ c ∈ val, ws c = false) :
    clausesOf (col ++ opIs ++ val) = [col ++ opIs ++ val] ∧
    clausesOf (col ++ eqPad ++ val) = [col ++ eqPad ++ val] := by
  obtain ⟨ha1, ha2⟩ := andSep_absent hcw hvw
  have hstrip1 : strip (col ++ opIs ++ val) = col ++ opIs ++ val :=
    strip_sandwich opIs hc0 hv0 hcw hvw
  have hstrip2 : strip (col ++ eqPad ++ val) = col ++ eqPad ++ val :=
    strip_sandwich eqPad hc0 hv0 hcw hvw
  have hne1 : (col ++ opIs ++ val).isEmpty = false := by
    cases col with
    | nil => exact absurd rfl hc0
    | cons x xs => rfl
  have hne2 : (col ++ eqPad ++ val).isEmpty = false := by
    cases col with
    | nil => exact absurd rfl hc0
    | cons x xs => rfl
  have hs1 : splitOnSub andSep (col ++ opIs ++ val) = [col ++ opIs ++ val] :=
    splitOnSub_single ha1
  have hs2 : splitOnSub andSep (col ++ eqPad ++ val) = [col ++ eqPad ++ val] :=
    splitOnSub_single ha2
  constructor
  · unfold clausesOf
    rw [hstrip1, hs1]
    simp [← List.append_assoc, hstrip1, hne1]
  · unfold clausesOf
    rw [hstrip2, hs2]
    simp [← List.append_assoc, hstrip2, hne2]

theorem plain_compileClause {col val : List Char}
    (hc0 : col ≠ [])
    (hcw : ∀ c ∈ col, ws c = false) (hvw : ∀ c ∈ val, ws c = false)
    (hcop : ∀ c ∈ col, c ≠ '<' ∧ c ≠ '>' ∧ c ≠ '=')
    (hvop : ∀ c ∈ val, c ≠ '<' ∧ c ≠ '>' ∧ c ≠ '=')
    (hcc : lowerL col ≠ containsWord) :
    compileClause (col ++ opIs ++ val) =
      some (Cond.compare (dataDot ++ col) MongoOp.eq (vCast val)) ∧
    compileClause (col ++ eqPad ++ val) =
      some (Cond.compare (dataDot ++ col) MongoOp.eq (vCast val)) := by
  have hcol_sp : ∀ c ∈ col, c ≠ ' ' := by
    intro c hc heq
    have := hcw c hc
    rw [heq] at this
    simp [ws] at this
  have hstripc : strip col = col := strip_all_not_ws hcw
  have hstripv : strip val = val := strip_all_not_ws hvw
  have hq1chars : ∀ c ∈ col ++ opIs ++ val, c ≠ '<' ∧ c ≠ '>' ∧ c ≠ '=' := by
    intro c hc
    rcases List.mem_append.mp hc with h | h
    · rcases List.mem_append.mp h with h2 | h2
      · exact hcop c h2
      · simp only [opIs] at h2
        fin_cases h2 <;> exact ⟨by decide, by decide, by decide⟩
    · exact hvop c h
  have hq2no : ∀ c ∈ col ++ eqPad ++ val, c ≠ '<' ∧ c ≠ '>' := by
    intro c hc
    rcases List.mem_append.mp hc with h | h
    · rcases List.mem_append.mp h with h2 | h2
      · exact ⟨(hcop c h2).1, (hcop c h2).2.1⟩
      · simp only [eqPad] at h2
        fin_cases h2 <;> exact ⟨by decide, by decide⟩
    · exact ⟨(hvop c h).1, (hvop c h).2.1⟩
  have hsh : col ++ eqPad ++ val = (col ++ [' ']) ++ opEq ++ (' ' :: val) := by
    simp [eqPad, opEq]
  constructor
  · -- the " is " query
    have sGe1 : substrSearch opGe (col ++ opIs ++ val) = false :=
      substrSearch_absent (x := '>') (by decide) (fun c hc => (hq1chars c hc).2.1)
    have sLe1 : substrSearch opLe (col ++ opIs ++ val) = false :=
      substrSearch_absent (x := '<') (by decide) (fun c hc => (hq1chars c hc).1)
    have sGt1 : substrSearch opGt (col ++ opIs ++ val) = false :=
      substrSearch_absent (x := '>') (by decide) (fun c hc => (hq1chars c hc).2.1)
    have sLt1 : substrSearch opLt (col ++ opIs ++ val) = false :=
      substrSearch_absent (x := '<') (by decide) (fun c hc => (hq1chars c hc).1)
    have sEq1 : substrSearch opEq (col ++ opIs ++ val) = false :=
      substrSearch_absent (x := '=') (by decide) (fun c hc => (hq1chars c hc).2.2)
    have sNe1 : substrSearch opNe (col ++ opIs ++ val) = false :=
      substrSearch_absent (x := '=') (by decide) (fun c hc => (hq1chars c hc).2.2)
    have sIs1 : substrSearch opIs (col ++ opIs ++ val) = true := substrSearch_at opIs col val
    have hfind1 : OPS.find? (fun op => substrSearch op (col ++ opIs ++ val)) = some opIs := by
      simp only [OPS, List.find?, sGe1, sLe1, sGt1, sLt1, sEq1, sNe1, sIs1]
    have hlq1 : lowerL (col ++ opIs ++ val) = lowerL col ++ opIs ++ lowerL val := by
      unfold lowerL
      rw [List.map_append, List.map_append]
      rfl
    have hcont1 : hasPrefixL containsTok (lowerL (col ++ opIs ++ val)) = false := by
      cases hh : hasPrefixL containsTok (lowerL (col ++ opIs ++ val)) with
      | false => rfl
      | true =>
        rw [hlq1, List.append_assoc] at hh
        have halign := word_space_align (p := containsWord) (a := lowerL col)
          (b := 'i' :: 's' :: ' ' :: lowerL val) (by decide) (lowerL_not_ws hcw) hh
        exact absurd halign.symm hcc
    have hsplit1 : splitFirst opIs (col ++ opIs ++ val) = some (col, val) :=
      splitFirst_at (s := ' ') (t := ['i', 's', ' ']) val hcol_sp
    have hnorm1 : mongoMap (opNorm opIs) = some MongoOp.eq := rfl
    unfold compileClause
    simp only [hcont1, Bool.false_eq_true, if_false, hfind1, hsplit1, hnorm1,
      hstripc, hstripv]
  · -- the " = " query
    have sGe2 : substrSearch opGe (col ++ eqPad ++ val) = false :=
      substrSearch_absent (x := '>') (by decide) (fun c hc => (hq2no c hc).2)
    have sLe2 : substrSearch opLe (col ++ eqPad ++ val) = false :=
      substrSearch_absent (x := '<') (by decide) (fun c hc => (hq2no c hc).1)
    have sGt2 : substrSearch opGt (col ++ eqPad ++ val) = false :=
      substrSearch_absent (x := '>') (by decide) (fun c hc => (hq2no c hc).2)
    have sLt2 : substrSearch opLt (col ++ eqPad ++ val) = false :=
      substrSearch_absent (x := '<') (by decide) (fun c hc => (hq2no c hc).1)
    have sEq2 : substrSearch opEq (col ++ eqPad ++ val) = true := by
      rw [hsh]
      exact substrSearch_at opEq (col ++ [' ']) (' ' :: val)
    have hfind2 : OPS.find? (fun op => substrSearch op (col ++ eqPad ++ val)) = some opEq := by
      simp only [OPS, List.find?, sGe2, sLe2, sGt2, sLt2, sEq2]
    have hlq2 : lowerL (col ++ eqPad ++ val) = lowerL col ++ eqPad ++ lowerL val := by
      unfold lowerL
      rw [List.map_append, List.map_append]
      rfl
    have hcont2 : hasPrefixL containsTok (lowerL (col ++ eqPad ++ val)) = false := by
      cases hh : hasPrefixL containsTok (lowerL (col ++ eqPad ++ val)) with
      | false => rfl
      | true =>
        rw [hlq2, List.append_assoc] at hh
        have halign := word_space_align (p := containsWord) (a := lowerL col)
          (b := '=' :: ' ' :: lowerL val) (by decide) (lowerL_not_ws hcw) hh
        exact absurd halign.symm hcc
    have hcolEqf : ∀ c ∈ col ++ [' '], c ≠ '=' := by
      intro c hc
      rcases List.mem_append.mp hc with h | h
      · exact (hcop c h).2.2
      · rw [List.mem_singleton.mp h]
        decide
    have hsplit2 : splitFirst opEq (col ++ eqPad ++ val) = some (col ++ [' '], ' ' :: val) := by
      rw [hsh]
      exact splitFirst_at (s := '=') (t := []) (' ' :: val) hcolEqf
    have hst1 : strip (col ++ [' ']) = col := strip_trailing_space hc0 hcw
    have hst2 : strip (' ' :: val) = val := strip_leading_space hvw
    have hnorm2 : mongoMap (opNorm opEq) = some MongoOp.eq := rfl
    unfold compileClause
    simp only [hcont2, Bool.false_eq_true, if_false, hfind2, hsplit2, hnorm2, hst1, hst2]

/-- Claim C7 (amended): `" is "` is normalized to `"="`.  For every dataset
id and every well-behaved column name and value — non-empty, whitespace-free
tokens containing none of the comparison characters `<`, `>`, `=`, with the
column not spelling `contains` — the queries `col is val` and `col = val`
compile to the same filter: the dataset scope conjoined with a single `$eq`
comparison of `data.col` against the coerced value.  In particular
`status is true` and `status = true` compile identically.  (The side
conditions are needed: a value containing an operator token mis-parses, see
the counterexample.) -/
theorem C7_is_normalized_to_eq :
    (∀ (dsid : String) (col val : List Char),
      col ≠ [] → val ≠ [] →
      (∀ c ∈ col, ws c = false) → (∀ c ∈ val, ws c = false) →
      (∀ c ∈ col, c ≠ '<' ∧ c ≠ '>' ∧ c ≠ '=') →
      (∀ c ∈ val, c ≠ '<' ∧ c ≠ '>' ∧ c ≠ '=') →
      lowerL col ≠ containsWord →
      compileFilter dsid (col ++ opIs ++ val) = compileFilter dsid (col ++ eqPad ++ val) ∧
      compileFilter dsid (col ++ opIs ++ val) =
        Filter.andFilter dsid [Cond.compare (dataDot ++ col) MongoOp.eq (vCast val)]) ∧
    compileFilter dsD qIsTrue = compileFilter dsD qEqTrue ∧
    compileFilter dsD qIsTrue =
      Filter.andFilter dsD [Cond.compare fieldStatus MongoOp.eq (QVal.bool true)] := by
  refine ⟨?_, by decide, by decide⟩
  intro dsid col val hc0 hv0 hcw hvw hcop hvop hcc
  obtain ⟨hcl1, hcl2⟩ := plain_compileClause hc0 hcw hvw hcop hvop hcc
  obtain ⟨hco1, hco2⟩ := plain_clausesOf hc0 hv0 hcw hvw
  have hap1 : andPartsOf (col ++ opIs ++ val) =
      [Cond.compare (dataDot ++ col) MongoOp.eq (vCast val)] := by
    unfold andPartsOf
    rw [hco1]
    simp [List.filterMap_cons, ← List.append_assoc, hcl1]
  have hap2 : andPartsOf (col ++ eqPad ++ val) =
      [Cond.compare (dataDot ++ col) MongoOp.eq (vCast val)] := by
    unfold andPartsOf
    rw [hco2]
    simp [List.filterMap_cons, ← List.append_assoc, hcl2]
  have hse1 : (strip (col ++ opIs ++ val)).isEmpty = false := by
    rw [strip_sandwich opIs hc0 hv0 hcw hvw]
    cases col with
    | nil => exact absurd rfl hc0
    | cons x xs => rfl
  have hse2 : (strip (col ++ eqPad ++ val)).isEmpty = false := by
    rw [strip_sandwich eqPad hc0 hv0 hcw hvw]
    cases col with
    | nil => exact absurd rfl hc0
    | cons x xs => rfl
  constructor
  · unfold compileFilter
    rw [hap1, hap2, hse1, hse2]
  · unfold compileFilter
    rw [hap1, hse1]
    rfl

/-- Counterexample for C7 as stated: for the value `a=b` the two forms
diverge — `status is a=b` splits on the `=` inside the value (the scan
checks `=` before `" is "`), yielding an equality on the column
`status is a` with value `b`, while `status = a=b` yields an equality on
`status` with value `a=b`. -/
theorem C7_counterexample :
    compileFilter dsD qIsAB ≠ compileFilter dsD qEqAB ∧
    compileFilter dsD qIsAB =
      Filter.andFilter dsD [Cond.compare fieldStatusIsA MongoOp.eq (QVal.str valB)] ∧
    compileFilter dsD qEqAB =
      Filter.andFilter dsD [Cond.compare fieldStatus MongoOp.eq (QVal.str valAB)] := by
  refine ⟨by decide, by decide, by decide⟩

/-- Witness for C7 (amended) at the concrete column `status` and value
`true`. -/
theorem C7_is_normalized_to_eq_witness :
    compileFilter dsD (colStatus ++ opIs ++ valTrue) =
      compileFilter dsD (colStatus ++ eqPad ++ valTrue) :=
  (C7_is_normalized_to_eq.1 dsD colStatus valTrue (by decide) (by decide) (by decide)
    (by decide) (by decide) (by decide) (by decide)).1
